import Mathlib

/-!
Shallow embedding of the TuneX music server core (`src/server.py`):
the per-user persisted store (history, search cache, likes, playlists),
the TTL-cached lookups, the related-list fallback caching, the prefetch
filter, and a small-step interleaving model of the single-flight
deduplication in `fetch_stream`.

Timestamps (`time.time()` floats in the source) are modelled as integers:
the code only subtracts and compares them, so any ordered additive group is
a faithful carrier. Python dicts (insertion-ordered, unique keys) are
modelled as association lists in insertion order.
-/

namespace TuneX

/-- `SEARCH_CACHE_TTL = 60 * 30` seconds (server.py line 30). -/
def SEARCH_CACHE_TTL : ℤ := 60 * 30

/-- `AUDIO_URL_TTL = 60 * 60 * 4` seconds (server.py line 31). -/
def AUDIO_URL_TTL : ℤ := 60 * 60 * 4

/-- `RELATED_CACHE_TTL = 60 * 60` seconds (server.py line 32). -/
def RELATED_CACHE_TTL : ℤ := 60 * 60

/-- A track value object (`_entry_to_track`): identity is the `id` field;
the remaining metadata fields are collapsed into `title`. -/
structure Track where
  id : String
  title : String
deriving DecidableEq, Repr

/-- One entry of the per-user search cache: `{"ts": time.time(), "results": results}`
(server.py line 237). -/
structure SearchEntry where
  ts : ℤ
  results : List Track
deriving DecidableEq, Repr

/-- A playlist: `{"name": name, "tracks": [], "created_at": time.time()}`
(server.py line 392). -/
structure Playlist where
  name : String
  tracks : List Track
  created_at : ℤ
deriving DecidableEq, Repr

/-- The persisted per-user record (`load_user` default, server.py line 81):
`{"history": [], "search_cache": {}, "liked": [], "playlists": {}}`. -/
structure UserData where
  history : List Track
  search_cache : List (String × SearchEntry)
  liked : List String
  playlists : List (String × Playlist)
deriving DecidableEq, Repr

/-- The default record returned by `load_user` for a fresh identity
(server.py line 81). -/
def load_user_default : UserData :=
  { history := [], search_cache := [], liked := [], playlists := [] }

/-- Python `dict.get`: first (unique) binding of the key. -/
def dict_get {α : Type} (c : List (String × α)) (k : String) : Option α :=
  (c.find? (fun p => p.1 = k)).map (fun p => p.2)

/-- Python `d[k] = v` on an insertion-ordered dict: replace in place if the
key is present, else append at the end. -/
def dict_insert {α : Type} (c : List (String × α)) (k : String) (v : α) :
    List (String × α) :=
  if c.any (fun p => p.1 = k) then
    c.map (fun p => if p.1 = k then (k, v) else p)
  else
    c ++ [(k, v)]

/-- A cache entry of the module-level TTL caches: `{"url"/"info"/"related": v, "ts": t}`. -/
structure CacheEntryM (V : Type) where
  value : V
  ts : ℤ
deriving DecidableEq, Repr

/-- The TTL lookup pattern of `fetch_stream` (lines 181-184) and
`fetch_related` (lines 207-209): `cached = cache.get(k)` followed by
`if cached and (time.time() - cached["ts"]) < TTL`. -/
def ttl_get {V : Type} (c : List (String × CacheEntryM V)) (k : String)
    (now ttl : ℤ) : Option V :=
  match dict_get c k with
  | some e => if now - e.ts < ttl then some e.value else none
  | none => none

/-- `record_play` (server.py lines 88-93): drop every history entry with the
played track's id, prepend the track, truncate to 200, persist. -/
def record_play (d : UserData) (track : Track) : UserData :=
  let h := d.history.filter (fun t => t.id ≠ track.id)
  { d with history := (track :: h).take 200 }

/-- `get_history` (server.py lines 308-311): returns `data["history"][:50]`. -/
def get_history (d : UserData) : List Track :=
  d.history.take 50

/-- `like_track` (server.py lines 314-322): insert at front if absent, then
truncate the liked list to 500, persist. -/
def like_track (d : UserData) (video_id : String) : UserData :=
  let liked := if video_id ∈ d.liked then d.liked else video_id :: d.liked
  { d with liked := liked.take 500 }

/-- `unlike_track` (server.py lines 326-330): remove every occurrence. -/
def unlike_track (d : UserData) (video_id : String) : UserData :=
  { d with liked := d.liked.filter (fun v => v ≠ video_id) }

/-- Liked lists reachable through the exposed like/unlike operations from the
default empty record: these are the per-user states the server can persist. -/
inductive LikedReachable : List String → Prop where
  | empty : LikedReachable []
  | like (l : List String) (v : String) (h : LikedReachable l) :
      LikedReachable ((like_track ⟨[], [], l, []⟩ v).liked)
  | unlike (l : List String) (v : String) (h : LikedReachable l) :
      LikedReachable ((unlike_track ⟨[], [], l, []⟩ v).liked)

/-- `add_to_playlist` (server.py lines 442-445): append the track unless some
member already has its id. -/
def add_to_playlist (pl : Playlist) (track : Track) : Playlist :=
  if pl.tracks.any (fun t => t.id = track.id) then pl
  else { pl with tracks := pl.tracks ++ [track] }

/-- `remove_from_playlist` (server.py line 460): keep members whose id differs. -/
def remove_from_playlist (pl : Playlist) (video_id : String) : Playlist :=
  { pl with tracks := pl.tracks.filter (fun t => t.id ≠ video_id) }

/-- The dict comprehension `{t["id"]: t for t in tracks}` (server.py line 477):
later occurrences overwrite earlier ones, so looking up an id yields the last
member with that id. -/
def track_map_get (tracks : List Track) (tid : String) : Option Track :=
  (tracks.filter (fun t => t.id = tid)).getLast?

/-- `reorder_playlist` (server.py lines 476-478):
`[track_map[tid] for tid in track_ids if tid in track_map]`. -/
def reorder_playlist (pl : Playlist) (track_ids : List String) : Playlist :=
  { pl with tracks := track_ids.filterMap (track_map_get pl.tracks) }

/-- The comparison used by `sorted(cache.items(), key=lambda x: x[1]["ts"])`. -/
def tsLE (a b : String × SearchEntry) : Prop := a.2.ts ≤ b.2.ts

instance : DecidableRel tsLE := fun a b => inferInstanceAs (Decidable (a.2.ts ≤ b.2.ts))

instance : IsTotal (String × SearchEntry) tsLE := ⟨fun a b => le_total a.2.ts b.2.ts⟩

instance : IsTrans (String × SearchEntry) tsLE := ⟨fun _ _ _ h1 h2 => le_trans h1 h2⟩

/-- The eviction step of `cached_search` (server.py lines 238-239):
`if len(cache) > 50: cache = dict(sorted(cache.items(), key=ts)[-50:])`.
Python `sorted` is a stable ascending sort — extensionally `insertionSort`,
which is stable for this comparator — and `[-50:]` keeps the last 50. -/
def search_evict (c : List (String × SearchEntry)) : List (String × SearchEntry) :=
  if 50 < c.length then
    let sorted := c.insertionSort tsLE
    sorted.drop (sorted.length - 50)
  else c

/-- Python `query.lower().strip()` (server.py line 231): lowercase every
character, then drop whitespace from both ends. (Defined over the character
list because core `String.trim` is not kernel-reducible.) -/
def normalize_query (q : String) : String :=
  ⟨((q.data.map Char.toLower).dropWhile Char.isWhitespace).reverse.dropWhile
      Char.isWhitespace |>.reverse⟩

/-- `cached_search` (server.py lines 228-242). The external search call is
passed in as `ext` (its results when invoked at this miss); the returned
`Bool` records whether the external call was made. -/
def cached_search (d : UserData) (query : String) (now : ℤ) (ext : List Track) :
    List Track × UserData × Bool :=
  let key := normalize_query query
  match dict_get d.search_cache key with
  | some e =>
    if now - e.ts < SEARCH_CACHE_TTL then (e.results, d, false)
    else
      let cache := search_evict (dict_insert d.search_cache key ⟨now, ext⟩)
      (ext, { d with search_cache := cache }, true)
  | none =>
    let cache := search_evict (dict_insert d.search_cache key ⟨now, ext⟩)
    (ext, { d with search_cache := cache }, true)

/-- One entry of `_related_cache`: `{"related": list, "ts": t}`. -/
abbrev RelatedCache := List (String × CacheEntryM (List Track))

/-- `fetch_related` (server.py lines 206-215). `ext` is the outcome of the
external related call were it made at this instant (`.error` = `DownloadError`);
the `Bool` records whether the external call was made. -/
def fetch_related (cache : RelatedCache) (video_id : String) (now : ℤ)
    (ext : Except Unit (List Track)) : List Track × RelatedCache × Bool :=
  match ttl_get cache video_id now RELATED_CACHE_TTL with
  | some related => (related, cache, false)
  | none =>
    let related := match ext with
      | .ok r => r
      | .error _ => []
    (related, dict_insert cache video_id ⟨related, now⟩, true)

/-- `prefetch_next` (server.py lines 246-250): the ids for which a background
task is launched, in loop order: the first 3 hints filtered by
`vid not in _audio_url_cache` (plain key membership, no timestamp check). -/
def prefetch_next (cache : List (String × CacheEntryM String))
    (video_ids : List String) : List String :=
  (video_ids.take 3).filter (fun vid => !(cache.any (fun p => p.1 = vid)))

/-- Follows the claim's words, for comparison with `prefetch_next`: launch
exactly for those of the first 3 hints that do not have a FRESH (non-stale)
entry in the resolved-URL cache. -/
def prefetch_next_claimed (cache : List (String × CacheEntryM String))
    (now : ℤ) (video_ids : List String) : List String :=
  (video_ids.take 3).filter (fun vid => (ttl_get cache vid now AUDIO_URL_TTL).isNone)

/-!
Small-step interleaving model of `fetch_stream` (server.py lines 173-203)
for one fixed `video_id` under the cooperative (asyncio) scheduler.

A caller coroutine runs atomically between suspension points. Its atomic
blocks are:
* from entry to either returning, starting to wait on the in-flight event,
  or starting the external call (lines 181-197 contain no `await` before
  `await _run(...)`, so the cache check, in-flight check, event creation and
  registration are one atomic block);
* resuming from `event.wait()` (line 188): re-check the cache and either
  return the cached value or fall through to a fresh attempt (lines 189-197);
* the external call (line 197) returning: install `_audio_url_cache` and
  `_track_info_cache`, then `finally:` set the event and unconditionally pop
  the in-flight map entry (lines 198-203) — no `await` in between.

The resolved value for the url+metadata pair is collapsed to one `String`
(the two cache writes at lines 198-199 happen in one atomic block).
The episode is short relative to `AUDIO_URL_TTL`, so an installed entry is
fresh for its duration and freshness checks are modelled as presence.
`ext i` is the outcome of the i-th external call started.
-/

instance {ε α : Type} [DecidableEq ε] [DecidableEq α] : DecidableEq (Except ε α) :=
  fun x y =>
    match x, y with
    | .ok a, .ok b => if h : a = b then .isTrue (by rw [h]) else .isFalse (by simp [h])
    | .error a, .error b => if h : a = b then .isTrue (by rw [h]) else .isFalse (by simp [h])
    | .ok _, .error _ => .isFalse (by simp)
    | .error _, .ok _ => .isFalse (by simp)

/-- The per-caller control state of one `fetch_stream` coroutine. -/
inductive CallerSt where
  /-- not yet entered `fetch_stream`'s body -/
  | start
  /-- suspended in `await _audio_url_inflight[video_id].wait()` on event `eid` -/
  | waiting (eid : ℕ)
  /-- suspended in `await _run(_sync_audio_url, video_id)`, having registered
  event `eid`; its external call is the `idx`-th one started -/
  | calling (eid : ℕ) (idx : ℕ)
  /-- returned normally (`.ok url`) or raised (`.error ()`) -/
  | done (r : Except Unit String)
deriving DecidableEq, Repr

/-- The process-wide state shared by all `fetch_stream` callers for one id:
`_audio_url_cache` entry, `_audio_url_inflight` entry, the set of
`asyncio.Event`s already `set()`, the external-call counter, and every
caller's control state. -/
structure SFState where
  cache : Option String
  inflight : Option ℕ
  eventSet : List ℕ
  nextEvent : ℕ
  calls : ℕ
  callers : List CallerSt
deriving DecidableEq, Repr

/-- One scheduler step: run the next atomic block of caller `i` (a no-op if
`i` is out of range, already done, or waiting on an unset event). -/
def sfStep (ext : ℕ → Except Unit String) (s : SFState) (i : ℕ) : SFState :=
  match s.callers.get? i with
  | none => s
  | some .start =>
    match s.cache with
    | some v => { s with callers := s.callers.set i (.done (.ok v)) }
    | none =>
      match s.inflight with
      | some eid => { s with callers := s.callers.set i (.waiting eid) }
      | none =>
        { s with inflight := some s.nextEvent,
                 nextEvent := s.nextEvent + 1,
                 calls := s.calls + 1,
                 callers := s.callers.set i (.calling s.nextEvent s.calls) }
  | some (.waiting eid) =>
    if eid ∈ s.eventSet then
      match s.cache with
      | some v => { s with callers := s.callers.set i (.done (.ok v)) }
      | none =>
        { s with inflight := some s.nextEvent,
                 nextEvent := s.nextEvent + 1,
                 calls := s.calls + 1,
                 callers := s.callers.set i (.calling s.nextEvent s.calls) }
    else s
  | some (.calling eid idx) =>
    match ext idx with
    | .ok v =>
      { s with cache := some v,
               eventSet := eid :: s.eventSet,
               inflight := none,
               callers := s.callers.set i (.done (.ok v)) }
    | .error e =>
      { s with eventSet := eid :: s.eventSet,
               inflight := none,
               callers := s.callers.set i (.done (.error e)) }
  | some (.done _) => s

/-- Initial state: cold caches, no in-flight fetch, `K` callers about to
call `fetch_stream` concurrently for the same id. -/
def sfInit (K : ℕ) : SFState :=
  ⟨none, none, [], 0, 0, List.replicate K .start⟩

/-- Run a schedule (a list of caller indices, each naming whose atomic block
runs next). -/
def sfRun (ext : ℕ → Except Unit String) (s : SFState) (sched : List ℕ) : SFState :=
  sched.foldl (sfStep ext) s

/-- Inductive invariant of the single-flight episode when the first external
call succeeds with `v`: before any call, during the single in-flight call,
and after its completion. -/
def SFInv (v : String) (s : SFState) : Prop :=
  (s.calls = 0 ∧ s.cache = none ∧ s.inflight = none ∧ s.eventSet = []
      ∧ s.nextEvent = 0 ∧ ∀ c ∈ s.callers, c = CallerSt.start)
  ∨ (s.calls = 1 ∧ s.cache = none ∧ s.inflight = some 0 ∧ s.eventSet = []
      ∧ ∀ c ∈ s.callers,
          c = CallerSt.start ∨ c = CallerSt.waiting 0 ∨ c = CallerSt.calling 0 0)
  ∨ (s.calls = 1 ∧ s.cache = some v ∧ 0 ∈ s.eventSet
      ∧ ∀ c ∈ s.callers,
          c = CallerSt.start ∨ c = CallerSt.waiting 0 ∨ c = CallerSt.calling 0 0
            ∨ c = CallerSt.done (.ok v))

/-! ## Helper lemmas -/

theorem dict_get_insert {α : Type} (c : List (String × α)) (k : String) (v : α) :
    dict_get (dict_insert c k v) k = some v := by
  unfold dict_insert
  split
  · rename_i hany
    unfold dict_get
    induction c with
    | nil => simp at hany
    | cons p rest ih =>
      by_cases hp : p.1 = k
      · simp [List.find?, hp]
      · simp only [List.map_cons, if_neg hp]
        rw [List.find?_cons_of_neg _ (by simpa using hp)]
        exact ih (by simpa [List.any_cons, hp] using hany)
  · rename_i hany
    unfold dict_get
    rw [List.find?_append]
    have h1 : c.find? (fun p => p.1 = k) = none := by
      rw [List.find?_eq_none]
      intro x hx
      simp only [decide_eq_true_eq]
      intro hxk
      exact hany (List.any_eq_true.mpr ⟨x, hx, by simpa using hxk⟩)
    simp [h1, List.find?]

theorem dict_get_none_iff {α : Type} (c : List (String × α)) (k : String) :
    dict_get c k = none ↔ ∀ p ∈ c, p.1 ≠ k := by
  unfold dict_get
  simp [List.find?_eq_none]

/-- A TTL lookup hits exactly when an entry is present and fresh. -/
theorem ttl_get_iff {V : Type} (c : List (String × CacheEntryM V)) (k : String)
    (now ttl : ℤ) (v : V) :
    ttl_get c k now ttl = some v
      ↔ ∃ e, dict_get c k = some e ∧ e.value = v ∧ now - e.ts < ttl := by
  unfold ttl_get
  rcases hg : dict_get c k with _ | e
  · simp
  · show (if now - e.ts < ttl then some e.value else none) = some v ↔ _
    split_ifs with hlt
    · constructor
      · intro hv
        injection hv with hv
        exact ⟨e, rfl, hv, hlt⟩
      · rintro ⟨e', he', hv, _⟩
        injection he' with he'
        rw [← he'] at hv
        rw [hv]
    · constructor
      · intro hv
        exact absurd hv (by simp)
      · rintro ⟨e', he', hv, hlt'⟩
        injection he' with he'
        rw [← he'] at hlt'
        exact absurd hlt' hlt

/-- Liking an already-present id on a record within the cap leaves the liked
list unchanged. -/
theorem like_track_mem {d : UserData} {v : String} (hv : v ∈ d.liked)
    (hlen : d.liked.length ≤ 500) : (like_track d v).liked = d.liked := by
  simp [like_track, hv, List.take_of_length_le hlen]

/-- Every reachable liked list respects the 500 cap. -/
theorem likedReachable_length {l : List String} (h : LikedReachable l) :
    l.length ≤ 500 := by
  induction h with
  | empty => simp
  | like l v h ih => exact List.length_take_le _ _
  | unlike l v h ih => exact le_trans (List.length_filter_le _ _) ih

/-- `track_map_get` returns a playlist member carrying the requested id. -/
theorem track_map_get_some {tracks : List Track} {tid : String} {t : Track}
    (h : track_map_get tracks tid = some t) : t ∈ tracks ∧ t.id = tid := by
  unfold track_map_get at h
  have hmem := List.mem_of_mem_getLast? h
  rw [List.mem_filter] at hmem
  exact ⟨hmem.1, by simpa using hmem.2⟩

/-- `tid in track_map` is membership of `tid` among the member ids. -/
theorem track_map_get_isSome {tracks : List Track} {tid : String} :
    (track_map_get tracks tid).isSome ↔ ∃ t ∈ tracks, t.id = tid := by
  unfold track_map_get
  rcases hl : (tracks.filter (fun t => t.id = tid)).getLast? with _ | t
  · rw [hl]
    rw [List.getLast?_eq_none_iff, List.filter_eq_nil_iff] at hl
    simp only [Option.isSome_none, Bool.false_eq_true, false_iff, not_exists]
    intro t ht
    exact hl t ht.1 (by simpa using ht.2)
  · rw [hl]
    have hmem := List.mem_of_mem_getLast? hl
    rw [List.mem_filter] at hmem
    simp only [Option.isSome_some, true_iff]
    exact ⟨t, hmem.1, by simpa using hmem.2⟩

/-- Bridge between `track_map_get` presence and the Boolean `any` test. -/
theorem track_map_get_any {tracks : List Track} {tid : String} :
    (track_map_get tracks tid).isSome = tracks.any (fun t => t.id = tid) := by
  rcases hb : tracks.any (fun t => t.id = tid) with _ | _
  · rcases hs : (track_map_get tracks tid).isSome with _ | _
    · rfl
    · obtain ⟨t, ht, hid⟩ := track_map_get_isSome.mp hs
      rw [← hb]
      symm
      exact List.any_eq_true.mpr ⟨t, ht, by simpa using hid⟩
  · have := List.any_eq_true.mp hb
    obtain ⟨t, ht, hid⟩ := this
    exact track_map_get_isSome.mpr ⟨t, ht, by simpa using hid⟩

/-- The reordered track id sequence is exactly the requested ids filtered to
current members, in request order. -/
theorem reorder_map_id (pl : Playlist) (ids : List String) :
    (reorder_playlist pl ids).tracks.map Track.id
      = ids.filter (fun tid => pl.tracks.any (fun t => t.id = tid)) := by
  show (ids.filterMap (track_map_get pl.tracks)).map Track.id = _
  induction ids with
  | nil => rfl
  | cons tid rest ih =>
    rcases hm : track_map_get pl.tracks tid with _ | t
    · have hany : pl.tracks.any (fun t => t.id = tid) = false := by
        have := @track_map_get_any pl.tracks tid
        rw [hm] at this
        exact this.symm
      rw [List.filterMap_cons_none hm, List.filter_cons_of_neg (by simp [hany]), ih]
    · have hany : pl.tracks.any (fun t => t.id = tid) = true := by
        have := @track_map_get_any pl.tracks tid
        rw [hm] at this
        exact this.symm
      rw [List.filterMap_cons_some hm, List.filter_cons_of_pos (by simp [hany]),
        List.map_cons, ih, (track_map_get_some hm).2]

/-- Members of a reordered playlist were already members. -/
theorem reorder_mem (pl : Playlist) (ids : List String) :
    ∀ t ∈ (reorder_playlist pl ids).tracks, t ∈ pl.tracks := by
  intro t ht
  show t ∈ pl.tracks
  have : t ∈ ids.filterMap (track_map_get pl.tracks) := ht
  rw [List.mem_filterMap] at this
  obtain ⟨tid, _, hm⟩ := this
  exact (track_map_get_some hm).1

theorem sfStep_inv {ext : ℕ → Except Unit String} {v : String}
    (hext : ext 0 = .ok v) {s : SFState} (hinv : SFInv v s) (i : ℕ) :
    SFInv v (sfStep ext s i) := by
  rcases hget : s.callers.get? i with _ | cs
  · unfold sfStep
    rw [hget]
    exact hinv
  · have hmem : cs ∈ s.callers := List.get?_mem hget
    rcases cs with _ | eid | ⟨eid, idx⟩ | r
    · -- start
      rcases hinv with ⟨h1, h2, h3, h4, h5, h6⟩ | ⟨h1, h2, h3, h4, h5⟩ | ⟨h1, h2, h3, h4⟩
      · have hstep : sfStep ext s i
            = { s with
                  inflight := some s.nextEvent
                  nextEvent := s.nextEvent + 1
                  calls := s.calls + 1
                  callers := s.callers.set i (CallerSt.calling s.nextEvent s.calls) } := by
          unfold sfStep
          rw [hget, h2, h3]
        rw [hstep]
        refine Or.inr (Or.inl ⟨by simp [h1], h2, by rw [h5], h4, ?_⟩)
        intro c hc
        rcases List.mem_or_eq_of_mem_set hc with hold | hnew
        · exact Or.inl (h6 c hold)
        · rw [hnew, h5, h1]
          exact Or.inr (Or.inr rfl)
      · have hstep : sfStep ext s i
            = { s with callers := s.callers.set i (CallerSt.waiting 0) } := by
          unfold sfStep
          rw [hget, h2, h3]
        rw [hstep]
        refine Or.inr (Or.inl ⟨h1, h2, h3, h4, ?_⟩)
        intro c hc
        rcases List.mem_or_eq_of_mem_set hc with hold | hnew
        · exact h5 c hold
        · rw [hnew]
          exact Or.inr (Or.inl rfl)
      · have hstep : sfStep ext s i
            = { s with callers := s.callers.set i (CallerSt.done (.ok v)) } := by
          unfold sfStep
          rw [hget, h2]
        rw [hstep]
        refine Or.inr (Or.inr ⟨h1, h2, h3, ?_⟩)
        intro c hc
        rcases List.mem_or_eq_of_mem_set hc with hold | hnew
        · exact h4 c hold
        · rw [hnew]
          exact Or.inr (Or.inr (Or.inr rfl))
    · -- waiting
      rcases hinv with ⟨h1, h2, h3, h4, h5, h6⟩ | ⟨h1, h2, h3, h4, h5⟩ | ⟨h1, h2, h3, h4⟩
      · exact CallerSt.noConfusion (h6 _ hmem)
      · have heid : eid = 0 := by
          rcases h5 _ hmem with h | h | h
          · exact CallerSt.noConfusion h
          · injection h
          · exact CallerSt.noConfusion h
        have hstep : sfStep ext s i = s := by
          unfold sfStep
          rw [hget, heid, h4]
          simp
        rw [hstep]
        exact Or.inr (Or.inl ⟨h1, h2, h3, h4, h5⟩)
      · have heid : eid = 0 := by
          rcases h4 _ hmem with h | h | h | h
          · exact CallerSt.noConfusion h
          · injection h
          · exact CallerSt.noConfusion h
          · exact CallerSt.noConfusion h
        have hstep : sfStep ext s i
            = { s with callers := s.callers.set i (CallerSt.done (.ok v)) } := by
          unfold sfStep
          rw [hget, heid, h2]
          simp [h3]
        rw [hstep]
        refine Or.inr (Or.inr ⟨h1, h2, h3, ?_⟩)
        intro c hc
        rcases List.mem_or_eq_of_mem_set hc with hold | hnew
        · exact h4 c hold
        · rw [hnew]
          exact Or.inr (Or.inr (Or.inr rfl))
    · -- calling
      rcases hinv with ⟨h1, h2, h3, h4, h5, h6⟩ | ⟨h1, h2, h3, h4, h5⟩ | ⟨h1, h2, h3, h4⟩
      · exact CallerSt.noConfusion (h6 _ hmem)
      · have hei : eid = 0 ∧ idx = 0 := by
          rcases h5 _ hmem with h | h | h
          · exact CallerSt.noConfusion h
          · exact CallerSt.noConfusion h
          · injection h with he hi
            exact ⟨he, hi⟩
        have hstep : sfStep ext s i
            = { s with
                  cache := some v
                  eventSet := 0 :: s.eventSet
                  inflight := none
                  callers := s.callers.set i (CallerSt.done (.ok v)) } := by
          unfold sfStep
          rw [hget, hei.1, hei.2]
          simp [hext]
        rw [hstep]
        refine Or.inr (Or.inr ⟨h1, rfl, List.mem_cons_self _ _, ?_⟩)
        intro c hc
        rcases List.mem_or_eq_of_mem_set hc with hold | hnew
        · rcases h5 c hold with h | h | h
          · exact Or.inl h
          · exact Or.inr (Or.inl h)
          · exact Or.inr (Or.inr (Or.inl h))
        · rw [hnew]
          exact Or.inr (Or.inr (Or.inr rfl))
      · have hei : eid = 0 ∧ idx = 0 := by
          rcases h4 _ hmem with h | h | h | h
          · exact CallerSt.noConfusion h
          · exact CallerSt.noConfusion h
          · injection h with he hi
            exact ⟨he, hi⟩
          · exact CallerSt.noConfusion h
        have hstep : sfStep ext s i
            = { s with
                  cache := some v
                  eventSet := 0 :: s.eventSet
                  inflight := none
                  callers := s.callers.set i (CallerSt.done (.ok v)) } := by
          unfold sfStep
          rw [hget, hei.1, hei.2]
          simp [hext]
        rw [hstep]
        refine Or.inr (Or.inr ⟨h1, rfl, List.mem_cons_self _ _, ?_⟩)
        intro c hc
        rcases List.mem_or_eq_of_mem_set hc with hold | hnew
        · exact h4 c hold
        · rw [hnew]
          exact Or.inr (Or.inr (Or.inr rfl))
    · -- done: no-op
      have hstep : sfStep ext s i = s := by
        unfold sfStep
        rw [hget]
      rw [hstep]
      exact hinv

/-- Running any schedule preserves the invariant. -/
theorem sfRun_inv {ext : ℕ → Except Unit String} {v : String}
    (hext : ext 0 = .ok v) {s : SFState} (hinv : SFInv v s) (sched : List ℕ) :
    SFInv v (sfRun ext s sched) := by
  induction sched generalizing s with
  | nil => exact hinv
  | cons i rest ih => exact ih (sfStep_inv hext hinv i)

/-- A step never changes the number of callers. -/
theorem sfStep_length (ext : ℕ → Except Unit String) (s : SFState) (i : ℕ) :
    (sfStep ext s i).callers.length = s.callers.length := by
  unfold sfStep
  rcases s.callers.get? i with _ | cs
  · rfl
  · rcases cs with _ | eid | ⟨eid, idx⟩ | r
    · rcases s.cache with _ | w
      · rcases s.inflight with _ | e
        · simp [List.length_set]
        · simp [List.length_set]
      · simp [List.length_set]
    · by_cases hm : eid ∈ s.eventSet
      · rcases s.cache with _ | w
        · simp [hm, List.length_set]
        · simp [hm, List.length_set]
      · simp [hm]
    · rcases hx : ext idx with w | e
      · simp [hx, List.length_set]
      · simp [hx, List.length_set]
    · rfl

/-- Running a schedule never changes the number of callers. -/
theorem sfRun_length (ext : ℕ → Except Unit String) (s : SFState) (sched : List ℕ) :
    (sfRun ext s sched).callers.length = s.callers.length := by
  induction sched generalizing s with
  | nil => rfl
  | cons i rest ih => exact (ih (sfStep ext s i)).trans (sfStep_length ext s i)

/-! ## Claim theorems -/

set_option maxRecDepth 10000

/-- C2: `record_play` removes any existing history entry with the played
track's id, prepends the track, and truncates to 200 entries; recording
plays `[A, B, A, C]` from an empty record yields history `[C, A, B]`, and
recording 201 distinct plays leaves exactly 200 entries with the oldest
(`"0"`) evicted. -/
theorem C2_record_play :
    (∀ (d : UserData) (t : Track),
        (record_play d t).history
            = (t :: d.history.filter (fun x => x.id ≠ t.id)).take 200
        ∧ (record_play d t).history.head? = some t
        ∧ (∀ x ∈ (record_play d t).history.tail, x.id ≠ t.id)
        ∧ (record_play d t).history.length ≤ 200)
    ∧ (([⟨"A", ""⟩, ⟨"B", ""⟩, ⟨"A", ""⟩, ⟨"C", ""⟩] : List Track).foldl record_play
          load_user_default).history = [⟨"C", ""⟩, ⟨"A", ""⟩, ⟨"B", ""⟩]
    ∧ (((List.range 201).map (fun n => (⟨toString n, ""⟩ : Track))).foldl record_play
          load_user_default).history
        = ((List.range 201).map (fun n => (⟨toString n, ""⟩ : Track))).reverse.take 200
    ∧ (((List.range 201).map (fun n => (⟨toString n, ""⟩ : Track))).foldl record_play
          load_user_default).history.length = 200
    ∧ (⟨"0", ""⟩ : Track)
        ∉ (((List.range 201).map (fun n => (⟨toString n, ""⟩ : Track))).foldl record_play
          load_user_default).history := by
  have hfold :
      (((List.range 201).map (fun n => (⟨toString n, ""⟩ : Track))).foldl record_play
          load_user_default).history
        = ((List.range 201).map (fun n => (⟨toString n, ""⟩ : Track))).reverse.take 200 := by
    decide
  refine ⟨?_, by decide, hfold, ?_, ?_⟩
  · intro d t
    refine ⟨rfl, rfl, ?_, List.length_take_le _ _⟩
    intro x hx
    have : (record_play d t).history
        = t :: (d.history.filter (fun x => x.id ≠ t.id)).take 199 := by
      show (t :: d.history.filter (fun x => x.id ≠ t.id)).take 200 = _
      exact List.take_succ_cons
    rw [this] at hx
    have hx' : x ∈ d.history.filter (fun x => x.id ≠ t.id) :=
      List.mem_of_mem_take hx
    have := (List.mem_filter.mp hx').2
    simpa using this
  · rw [hfold]
    simp [List.length_take]
  · rw [hfold]
    decide

theorem C2_record_play_witness :
    (⟨"B", ""⟩ : Track) ∈ (record_play ⟨[⟨"B", ""⟩], [], [], []⟩ ⟨"A", ""⟩).history.tail
    ∧ (⟨"B", ""⟩ : Track).id ≠ (⟨"A", ""⟩ : Track).id :=
  ⟨by decide,
    (C2_record_play.1 ⟨[⟨"B", ""⟩], [], [], []⟩ ⟨"A", ""⟩).2.2.1 ⟨"B", ""⟩ (by decide)⟩

/-- C10: the history read returns `history[:50]` — at most the first 50 of up
to 200 stored entries; indices from 50 on are never returned although
`record_play` persists up to 200 entries (a 200-entry stored history returns
exactly 50). -/
theorem C10_get_history (d : UserData) (t : Track) :
    get_history d = d.history.take 50
    ∧ (get_history d).length ≤ 50
    ∧ (record_play d t).history.length ≤ 200
    ∧ (∀ i, 50 ≤ i → (get_history d).get? i = none)
    ∧ (get_history ⟨List.replicate 200 ⟨"a", ""⟩, [], [], []⟩).length = 50
    ∧ (⟨List.replicate 200 ⟨"a", ""⟩, [], [], []⟩ : UserData).history.length = 200
    ∧ (record_play ⟨List.replicate 200 ⟨"a", ""⟩, [], [], []⟩ ⟨"x", ""⟩).history.length
        = 200 := by
  refine ⟨rfl, List.length_take_le _ _, List.length_take_le _ _, ?_, by decide, by decide,
    by decide⟩
  intro i hi
  rw [List.get?_eq_none]
  exact le_trans (List.length_take_le _ _) hi

theorem C10_get_history_witness :
    (50 ≤ 50) ∧ (get_history load_user_default).get? 50 = none :=
  ⟨by decide, (C10_get_history load_user_default ⟨"x", ""⟩).2.2.2.1 50 (by decide)⟩

/-- C5: reordering yields exactly the requested ids that are current members,
in request order; foreign ids are dropped and omitted members removed:
`[A, B, C]` reordered by `[C, A]` is `[C, A]`, and by `[C, A, Z]` is also
`[C, A]`. -/
theorem C5_reorder_playlist (pl : Playlist) (ids : List String) :
    ((reorder_playlist pl ids).tracks.map Track.id
        = ids.filter (fun tid => pl.tracks.any (fun t => t.id = tid)))
    ∧ (∀ t ∈ (reorder_playlist pl ids).tracks, t ∈ pl.tracks)
    ∧ (reorder_playlist ⟨"p", [⟨"A", ""⟩, ⟨"B", ""⟩, ⟨"C", ""⟩], 0⟩ ["C", "A"]).tracks
        = [⟨"C", ""⟩, ⟨"A", ""⟩]
    ∧ (reorder_playlist ⟨"p", [⟨"A", ""⟩, ⟨"B", ""⟩, ⟨"C", ""⟩], 0⟩
          ["C", "A", "Z"]).tracks
        = [⟨"C", ""⟩, ⟨"A", ""⟩] :=
  ⟨reorder_map_id pl ids, reorder_mem pl ids, by decide, by decide⟩

theorem C5_reorder_playlist_witness :
    (⟨"C", ""⟩ : Track)
        ∈ (reorder_playlist ⟨"p", [⟨"A", ""⟩, ⟨"B", ""⟩, ⟨"C", ""⟩], 0⟩ ["C", "A"]).tracks
    ∧ (⟨"C", ""⟩ : Track) ∈ (⟨"p", [⟨"A", ""⟩, ⟨"B", ""⟩, ⟨"C", ""⟩], 0⟩ : Playlist).tracks :=
  ⟨by decide,
    (C5_reorder_playlist ⟨"p", [⟨"A", ""⟩, ⟨"B", ""⟩, ⟨"C", ""⟩], 0⟩ ["C", "A"]).2.1
      ⟨"C", ""⟩ (by decide)⟩

/-- C8 fails as stated: reordering a playlist that satisfies the
unique-by-id invariant with a request list containing a duplicate member id
produces a playlist violating the invariant (`["A", "A"]` on `[A, B]`
yields tracks with ids `["A", "A"]`). -/
theorem C8_counterexample :
    ((⟨"p", [⟨"A", ""⟩, ⟨"B", ""⟩], 0⟩ : Playlist).tracks.map Track.id).Nodup
    ∧ (reorder_playlist ⟨"p", [⟨"A", ""⟩, ⟨"B", ""⟩], 0⟩ ["A", "A"]).tracks.map Track.id
        = ["A", "A"]
    ∧ ¬ ((reorder_playlist ⟨"p", [⟨"A", ""⟩, ⟨"B", ""⟩], 0⟩ ["A", "A"]).tracks.map
          Track.id).Nodup := by
  decide

/-- C8 amended: `add_to_playlist` and `remove_from_playlist` always preserve
uniqueness of track ids, and `reorder_playlist` preserves it provided the
requested id list has no duplicates; adding a track whose id is already
present is a no-op leaving the playlist (and its track count) unchanged. -/
theorem C8_playlist_unique (pl : Playlist) (t : Track) (vid : String)
    (ids : List String) (h : (pl.tracks.map Track.id).Nodup) :
    ((add_to_playlist pl t).tracks.map Track.id).Nodup
    ∧ ((remove_from_playlist pl vid).tracks.map Track.id).Nodup
    ∧ (ids.Nodup → ((reorder_playlist pl ids).tracks.map Track.id).Nodup)
    ∧ (pl.tracks.any (fun x => x.id = t.id) →
        add_to_playlist pl t = pl
        ∧ (add_to_playlist pl t).tracks.length = pl.tracks.length) := by
  refine ⟨?_, ?_, ?_, ?_⟩
  · unfold add_to_playlist
    rcases hany : pl.tracks.any (fun x => x.id = t.id) with _ | _
    · simp only [Bool.false_eq_true, if_false, List.map_append, List.map_cons,
        List.map_nil, List.nodup_append]
      refine ⟨h, List.nodup_singleton _, ?_⟩
      intro x hx hx1
      simp only [List.mem_singleton] at hx1
      subst hx1
      rw [List.mem_map] at hx
      obtain ⟨y, hy, hyid⟩ := hx
      have : ¬ (pl.tracks.any (fun x => x.id = t.id) = true) := by simp [hany]
      exact this (List.any_eq_true.mpr ⟨y, hy, by simpa using hyid⟩)
    · simpa [hany] using h
  · have hsub : (remove_from_playlist pl vid).tracks.Sublist pl.tracks :=
      List.filter_sublist _
    exact (h.sublist (hsub.map Track.id))
  · intro hids
    rw [reorder_map_id]
    exact hids.filter _
  · intro hany
    constructor
    · unfold add_to_playlist
      rw [if_pos hany]
    · unfold add_to_playlist
      rw [if_pos hany]

/-- C3: a TTL lookup returns the cached value exactly when an entry is
present and `now - inserted_at < ttl`; a never-inserted key, or one whose
entry has `now - inserted_at >= ttl`, is treated as absent; an entry
inserted at `t0` is a hit at `t0 + ttl - ε` (ε > 0) and a miss at
`t0 + ttl + ε` (ε ≥ 0). -/
theorem C3_ttl_cache {V : Type} (c : List (String × CacheEntryM V)) (k : String)
    (now ttl t0 ε : ℤ) (v : V) :
    (ttl_get c k now ttl = some v
        ↔ ∃ e, dict_get c k = some e ∧ e.value = v ∧ now - e.ts < ttl)
    ∧ (dict_get c k = none → ttl_get c k now ttl = none)
    ∧ (dict_get c k = some ⟨v, t0⟩ → 0 < ε →
        ttl_get c k (t0 + ttl - ε) ttl = some v)
    ∧ (dict_get c k = some ⟨v, t0⟩ → 0 ≤ ε →
        ttl_get c k (t0 + ttl + ε) ttl = none) := by
  refine ⟨ttl_get_iff c k now ttl v, ?_, ?_, ?_⟩
  · intro hg
    unfold ttl_get
    rw [hg]
  · intro hg hε
    exact (ttl_get_iff c k _ ttl v).mpr
      ⟨⟨v, t0⟩, hg, rfl, by change t0 + ttl - ε - t0 < ttl; omega⟩
  · intro hg hε
    rcases h2 : ttl_get c k (t0 + ttl + ε) ttl with _ | w
    · rfl
    · exfalso
      obtain ⟨e, he, _, hlt⟩ := (ttl_get_iff c k _ ttl w).mp h2
      rw [hg] at he
      injection he with he
      rw [← he] at hlt
      change t0 + ttl + ε - t0 < ttl at hlt
      omega

theorem C3_ttl_cache_witness :
    dict_get [("k", (⟨"v", 0⟩ : CacheEntryM String))] "k" = some ⟨"v", 0⟩
    ∧ (0 : ℤ) < 1
    ∧ ttl_get [("k", (⟨"v", 0⟩ : CacheEntryM String))] "k" (0 + AUDIO_URL_TTL - 1)
        AUDIO_URL_TTL = some "v"
    ∧ ttl_get [("k", (⟨"v", 0⟩ : CacheEntryM String))] "k" (0 + AUDIO_URL_TTL + 1)
        AUDIO_URL_TTL = none :=
  ⟨by decide, by decide,
    (C3_ttl_cache [("k", ⟨"v", 0⟩)] "k" 7 AUDIO_URL_TTL 0 1 "v").2.2.1 (by decide)
      (by decide),
    (C3_ttl_cache [("k", ⟨"v", 0⟩)] "k" 7 AUDIO_URL_TTL 0 1 "v").2.2.2 (by decide)
      (by decide)⟩

/-- C6: when the external related call fails, `fetch_related` returns `[]`
and caches the empty list under the id, so a lookup for the same id within
the TTL window returns `[]` from the cache without a second external call
(the `Bool` component records whether the external call was made). -/
theorem C6_related_fallback (cache : RelatedCache) (vid : String) (t0 t1 : ℤ)
    (ext2 : Except Unit (List Track))
    (hmiss : ttl_get cache vid t0 RELATED_CACHE_TTL = none)
    (h0 : t0 ≤ t1) (hwin : t1 - t0 < RELATED_CACHE_TTL) :
    fetch_related cache vid t0 (.error ())
        = ([], dict_insert cache vid ⟨[], t0⟩, true)
    ∧ fetch_related (dict_insert cache vid ⟨[], t0⟩) vid t1 ext2
        = ([], dict_insert cache vid ⟨[], t0⟩, false) := by
  constructor
  · unfold fetch_related
    rw [hmiss]
  · unfold fetch_related
    have hget : ttl_get (dict_insert cache vid ⟨[], t0⟩) vid t1 RELATED_CACHE_TTL
        = some [] :=
      (ttl_get_iff _ vid t1 RELATED_CACHE_TTL []).mpr
        ⟨⟨[], t0⟩, dict_get_insert cache vid _, rfl,
          by change t1 - t0 < RELATED_CACHE_TTL; exact hwin⟩
    rw [hget]

theorem C6_related_fallback_witness :
    ttl_get ([] : RelatedCache) "X" 0 RELATED_CACHE_TTL = none
    ∧ (0 : ℤ) ≤ 10 ∧ (10 : ℤ) - 0 < RELATED_CACHE_TTL
    ∧ fetch_related ([] : RelatedCache) "X" 0 (.error ())
        = ([], dict_insert [] "X" ⟨[], 0⟩, true)
    ∧ fetch_related (dict_insert ([] : RelatedCache) "X" ⟨[], 0⟩) "X" 10
        (.ok [⟨"t", ""⟩])
        = ([], dict_insert [] "X" ⟨[], 0⟩, false) :=
  ⟨by decide, by decide, by decide,
    (C6_related_fallback [] "X" 0 10 (.ok [⟨"t", ""⟩]) (by decide) (by decide)
      (by decide)).1,
    (C6_related_fallback [] "X" 0 10 (.ok [⟨"t", ""⟩]) (by decide) (by decide)
      (by decide)).2⟩

/-- C7 fails as stated: with a stale entry for `"X"` (inserted at 0, queried
at `AUDIO_URL_TTL + 1`), the code skips the hint (plain membership test at
line 249), while the claim — skip only hints with a FRESH entry — would have
it launched. -/
theorem C7_counterexample :
    prefetch_next [("X", ⟨"u", 0⟩)] ["X"] = []
    ∧ prefetch_next_claimed [("X", ⟨"u", 0⟩)] (AUDIO_URL_TTL + 1) ["X"] = ["X"]
    ∧ ttl_get [("X", (⟨"u", 0⟩ : CacheEntryM String))] "X" (AUDIO_URL_TTL + 1)
        AUDIO_URL_TTL = none
    ∧ prefetch_next [("X", ⟨"u", 0⟩)] ["X"]
        ≠ prefetch_next_claimed [("X", ⟨"u", 0⟩)] (AUDIO_URL_TTL + 1) ["X"] := by
  decide

/-- C7 amended: prefetch considers at most the first 3 hints and launches
exactly for those among them with NO entry at all (fresh or stale) in the
resolved-URL cache; any hint with an entry — fresh or expired — is skipped. -/
theorem C7_prefetch (cache : List (String × CacheEntryM String)) (ids : List String)
    (v : String) :
    (v ∈ prefetch_next cache ids ↔ v ∈ ids.take 3 ∧ dict_get cache v = none)
    ∧ (prefetch_next cache ids).length ≤ 3
    ∧ (prefetch_next cache ids).Sublist (ids.take 3) := by
  refine ⟨?_, ?_, List.filter_sublist _⟩
  · unfold prefetch_next
    rw [List.mem_filter]
    constructor
    · rintro ⟨hmem, hb⟩
      refine ⟨hmem, ?_⟩
      rw [dict_get_none_iff]
      intro p hp hpk
      simp only [Bool.not_eq_true'] at hb
      have : cache.any (fun p => p.1 = v) = true :=
        List.any_eq_true.mpr ⟨p, hp, by simpa using hpk⟩
      rw [this] at hb
      exact absurd hb (by simp)
    · rintro ⟨hmem, hnone⟩
      refine ⟨hmem, ?_⟩
      simp only [Bool.not_eq_true']
      rcases hb : cache.any (fun p => p.1 = v) with _ | _
      · rfl
      · obtain ⟨p, hp, hpk⟩ := List.any_eq_true.mp hb
        rw [dict_get_none_iff] at hnone
        exact absurd (by simpa using hpk) (hnone p hp)
  · exact le_trans (List.length_filter_le _ _)
      (le_trans (List.length_take_le _ _) (le_refl 3))

/-- C9: `like_track` is idempotent on server-reachable records: liking an
absent id inserts it at the front (capping at 500), and liking the same id
twice leaves the list equal to the list after a single like, containing the
id exactly once, at the front. -/
theorem C9_like_idempotent (d : UserData) (v : String) :
    (v ∉ d.liked →
        (like_track d v).liked = (v :: d.liked).take 500
        ∧ (like_track d v).liked.head? = some v
        ∧ (like_track d v).liked.count v = 1
        ∧ (like_track (like_track d v) v).liked = (like_track d v).liked)
    ∧ (d.liked.length ≤ 500 →
        (like_track (like_track d v) v).liked = (like_track d v).liked)
    ∧ (LikedReachable d.liked →
        (like_track (like_track d v) v).liked = (like_track d v).liked) := by
  have habsent : v ∉ d.liked →
      (like_track d v).liked = (v :: d.liked).take 500
      ∧ (like_track d v).liked.head? = some v
      ∧ (like_track d v).liked.count v = 1
      ∧ (like_track (like_track d v) v).liked = (like_track d v).liked := by
    intro h
    have e1 : (like_track d v).liked = v :: d.liked.take 499 := by
      simp [like_track, h, List.take_succ_cons]
    have hlen : (like_track d v).liked.length ≤ 500 := by
      rw [e1]
      simp only [List.length_cons, List.length_take]
      omega
    have hmem : v ∈ (like_track d v).liked := by
      rw [e1]
      exact List.mem_cons_self v _
    refine ⟨by rw [e1, List.take_succ_cons], by rw [e1]; rfl, ?_,
      like_track_mem hmem hlen⟩
    rw [e1, List.count_cons_self]
    have hcnt : (d.liked.take 499).count v = 0 :=
      List.count_eq_zero.mpr (fun hm => h (List.mem_of_mem_take hm))
    rw [hcnt]
  have hcap : d.liked.length ≤ 500 →
      (like_track (like_track d v) v).liked = (like_track d v).liked := by
    intro hK
    by_cases hv : v ∈ d.liked
    · have e3 : (like_track d v).liked = d.liked := like_track_mem hv hK
      have hv2 : v ∈ (like_track d v).liked := by rw [e3]; exact hv
      have hK2 : (like_track d v).liked.length ≤ 500 := by rw [e3]; exact hK
      exact like_track_mem hv2 hK2
    · exact (habsent hv).2.2.2
  exact ⟨habsent, hcap, fun hr => hcap (likedReachable_length hr)⟩

theorem C9_like_idempotent_witness :
    ("X" ∉ load_user_default.liked)
    ∧ LikedReachable load_user_default.liked
    ∧ (like_track (like_track load_user_default "X") "X").liked
        = (like_track load_user_default "X").liked
    ∧ (like_track load_user_default "X").liked.count "X" = 1
    ∧ (like_track load_user_default "X").liked.head? = some "X" :=
  ⟨by decide, LikedReachable.empty,
    (C9_like_idempotent load_user_default "X").2.2 LikedReachable.empty,
    ((C9_like_idempotent load_user_default "X").1 (by decide)).2.2.1,
    ((C9_like_idempotent load_user_default "X").1 (by decide)).2.1⟩

theorem C8_playlist_unique_witness :
    ((⟨"p", [⟨"A", ""⟩, ⟨"B", ""⟩], 0⟩ : Playlist).tracks.map Track.id).Nodup
    ∧ (["B", "A"] : List String).Nodup
    ∧ ((⟨"p", [⟨"A", ""⟩, ⟨"B", ""⟩], 0⟩ : Playlist).tracks.any
        (fun x => x.id = (⟨"A", "x"⟩ : Track).id))
    ∧ ((reorder_playlist ⟨"p", [⟨"A", ""⟩, ⟨"B", ""⟩], 0⟩ ["B", "A"]).tracks.map
        Track.id).Nodup
    ∧ add_to_playlist ⟨"p", [⟨"A", ""⟩, ⟨"B", ""⟩], 0⟩ ⟨"A", "x"⟩
        = ⟨"p", [⟨"A", ""⟩, ⟨"B", ""⟩], 0⟩ :=
  ⟨by decide, by decide, by decide,
    (C8_playlist_unique ⟨"p", [⟨"A", ""⟩, ⟨"B", ""⟩], 0⟩ ⟨"A", "x"⟩ "v" ["B", "A"]
        (by decide)).2.2.1 (by decide),
    ((C8_playlist_unique ⟨"p", [⟨"A", ""⟩, ⟨"B", ""⟩], 0⟩ ⟨"A", "x"⟩ "v" ["B", "A"]
        (by decide)).2.2.2 (by decide)).1⟩

/-- C1 amended (success half): under any interleaving of `K` concurrent
`fetch_stream` callers for one id, if the first external call succeeds with
`v` then at most one external call is ever started, every caller that
completes returns that same `v`, and once all callers have completed
exactly one external call was made. -/
theorem C1_single_flight (ext : ℕ → Except Unit String) (v : String) (K : ℕ)
    (sched : List ℕ) (hext : ext 0 = .ok v) :
    (sfRun ext (sfInit K) sched).calls ≤ 1
    ∧ (∀ c ∈ (sfRun ext (sfInit K) sched).callers, ∀ r, c = CallerSt.done r →
        r = .ok v)
    ∧ ((∀ c ∈ (sfRun ext (sfInit K) sched).callers, ∃ r, c = CallerSt.done r) →
        1 ≤ K → (sfRun ext (sfInit K) sched).calls = 1) := by
  have hinv0 : SFInv v (sfInit K) :=
    Or.inl ⟨rfl, rfl, rfl, rfl, rfl, fun c hc => List.eq_of_mem_replicate hc⟩
  have hinv := sfRun_inv hext hinv0 sched
  have hlen : (sfRun ext (sfInit K) sched).callers.length = K := by
    rw [sfRun_length]
    exact List.length_replicate K _
  refine ⟨?_, ?_, ?_⟩
  · rcases hinv with ⟨h1, _⟩ | ⟨h1, _⟩ | ⟨h1, _⟩
    · omega
    · omega
    · omega
  · intro c hc r hr
    rcases hinv with ⟨_, _, _, _, _, h6⟩ | ⟨_, _, _, _, h5⟩ | ⟨_, _, _, h4⟩
    · rw [hr] at hc
      exact CallerSt.noConfusion (h6 _ hc)
    · rw [hr] at hc
      rcases h5 _ hc with h | h | h
      · exact CallerSt.noConfusion h
      · exact CallerSt.noConfusion h
      · exact CallerSt.noConfusion h
    · rw [hr] at hc
      rcases h4 _ hc with h | h | h | h
      · exact CallerSt.noConfusion h
      · exact CallerSt.noConfusion h
      · exact CallerSt.noConfusion h
      · injection h with h
  · intro hdone hK
    have hne : (sfRun ext (sfInit K) sched).callers ≠ [] := by
      intro hnil
      rw [hnil] at hlen
      simp at hlen
      omega
    obtain ⟨c0, hc0⟩ := List.exists_mem_of_ne_nil _ hne
    obtain ⟨r0, hr0⟩ := hdone c0 hc0
    rcases hinv with ⟨_, _, _, _, _, h6⟩ | ⟨_, _, _, _, h5⟩ | ⟨h1, _, _, _⟩
    · rw [hr0] at hc0
      exact CallerSt.noConfusion (h6 _ hc0)
    · rw [hr0] at hc0
      rcases h5 _ hc0 with h | h | h
      · exact CallerSt.noConfusion h
      · exact CallerSt.noConfusion h
      · exact CallerSt.noConfusion h
    · exact h1

theorem C1_single_flight_witness :
    (((fun _ => Except.ok "u") : ℕ → Except Unit String) 0 = Except.ok "u")
    ∧ (sfRun (fun _ => .ok "u") (sfInit 2) [0, 1, 0, 1]).calls = 1 :=
  ⟨rfl,
    (C1_single_flight (fun _ => .ok "u") "u" 2 [0, 1, 0, 1] rfl).2.2
      (by
        intro c hc
        have he : (sfRun (fun _ => Except.ok "u") (sfInit 2) [0, 1, 0, 1]).callers
            = [CallerSt.done (.ok "u"), CallerSt.done (.ok "u")] := by decide
        rw [he] at hc
        simp only [List.mem_cons, List.not_mem_nil, or_false] at hc
        rcases hc with h | h
        · exact ⟨_, h⟩
        · exact ⟨_, h⟩)
      (by decide)⟩

/-- C1 fails as stated in its failure half: two concurrent callers, external
call always failing. Caller 0 starts the call; caller 1 joins and waits; the
call fails; the woken waiter does not receive the failure but starts its own
fresh external call, so the external operation runs twice, not once. -/
theorem C1_counterexample :
    (∀ c ∈ (sfRun (fun _ => .error ()) (sfInit 2) [0, 1, 0, 1, 1]).callers,
        c = CallerSt.done (.error ()))
    ∧ (sfRun (fun _ => .error ()) (sfInit 2) [0, 1, 0, 1, 1]).calls = 2
    ∧ (sfRun (fun _ => .error ()) (sfInit 2) [0, 1, 0, 1, 1]).calls ≠ 1 := by
  decide

/-- C4: when an insertion pushes the per-user search cache above 50 entries,
exactly 50 entries are retained: the kept entries all have insertion
timestamps at least those of the discarded ones (eviction by insertion
recency, not by access), and inserting 51 distinct queries leaves exactly
the 50 most recent with the earliest-inserted query ("0") evicted. -/
theorem C4_search_cache_cap (c : List (String × SearchEntry)) (h : 50 < c.length) :
    (search_evict c).length = 50
    ∧ ((c.insertionSort tsLE).take (c.length - 50) ++ search_evict c
        = c.insertionSort tsLE)
    ∧ ((c.insertionSort tsLE).take (c.length - 50) ++ search_evict c).Perm c
    ∧ (∀ a ∈ (c.insertionSort tsLE).take (c.length - 50), ∀ b ∈ search_evict c,
        a.2.ts ≤ b.2.ts)
    ∧ (((List.range 51).foldl
          (fun d i => (cached_search d (toString i) (i : ℤ) []).2.1)
          load_user_default).search_cache.map Prod.fst
        = ((List.range 51).drop 1).map (fun i => toString i))
    ∧ ((List.range 51).foldl
          (fun d i => (cached_search d (toString i) (i : ℤ) []).2.1)
          load_user_default).search_cache.length = 50
    ∧ "0" ∉ ((List.range 51).foldl
          (fun d i => (cached_search d (toString i) (i : ℤ) []).2.1)
          load_user_default).search_cache.map Prod.fst := by
  have hs : (c.insertionSort tsLE).length = c.length :=
    (List.perm_insertionSort tsLE c).length_eq
  have hev : search_evict c = (c.insertionSort tsLE).drop (c.length - 50) := by
    unfold search_evict
    rw [if_pos h]
    show (c.insertionSort tsLE).drop ((c.insertionSort tsLE).length - 50) = _
    rw [hs]
  have happ : (c.insertionSort tsLE).take (c.length - 50) ++ search_evict c
      = c.insertionSort tsLE := by
    rw [hev]
    exact List.take_append_drop _ _
  have hconcrete : (((List.range 51).foldl
        (fun d i => (cached_search d (toString i) (i : ℤ) []).2.1)
        load_user_default).search_cache).map Prod.fst
      = ((List.range 51).drop 1).map (fun i => toString i) := by
    decide
  refine ⟨?_, happ, ?_, ?_, hconcrete, ?_, ?_⟩
  · rw [hev, List.length_drop, hs]
    omega
  · rw [happ]
    exact List.perm_insertionSort tsLE c
  · intro a ha b hb
    rw [hev] at hb
    exact (List.sorted_insertionSort tsLE c).rel_of_mem_take_of_mem_drop ha hb
  · have := congrArg List.length hconcrete
    rw [List.length_map, List.length_map] at this
    rw [this]
    simp
  · rw [hconcrete]
    decide

theorem C4_search_cache_cap_witness :
    (50 < ((List.range 51).map
        (fun i => (toString i, (⟨(i : ℤ), []⟩ : SearchEntry)))).length)
    ∧ (search_evict ((List.range 51).map
        (fun i => (toString i, (⟨(i : ℤ), []⟩ : SearchEntry))))).length = 50 :=
  ⟨by decide,
    (C4_search_cache_cap
      ((List.range 51).map (fun i => (toString i, ⟨(i : ℤ), []⟩)))
      (by decide)).1⟩

end TuneX
